import Mathlib

/-!
Shallow embedding of the collaborative-whiteboard repository.

Server side (server.js, the full backend with `undo:empty` / `redo:empty`):
the shared mutable state is `users`, `globalHistory` and `redoStack`; the
socket handlers `draw:end`, `undo`, `redo`, `clear:board`, `draw:start`,
`draw:move` and `cursor:move` are embedded as pure functions from state and
payload to the new state together with the list of emitted messages, each
tagged with its audience (`io.emit` = all connections, `socket.broadcast.emit`
= all but the sender, `socket.emit` = the requesting connection only).

Client side (canvas.js): `_drawSmooth` is embedded as a canvas-command trace,
and `syncHistory` / `commitRemoteStroke` as functions on the client state
(local stroke mirror plus the three layer canvases).

JavaScript arrays are lists with `push` appending at the end and `pop`
removing the last element; JavaScript objects used as maps are association
lists. Wire payloads that the server forwards without inspecting are modelled
by the JSON-like type `JsPayload`, so that malformed payloads are covered.
Stroke objects themselves follow the documented shape
`{ id, points, color, size }`; since JavaScript objects are truthy, the
`if (last)` test after `globalHistory.pop()` succeeds exactly when the pop
returned an element.
-/

namespace Whiteboard

/-- A 2-D canvas point with rational coordinates. -/
structure Point where
  x : ℚ
  y : ℚ
deriving DecidableEq

/-- A stroke as committed over the wire: `{ id, points, color, size }`. -/
structure Stroke where
  id : String
  points : List Point
  color : String
  size : ℚ
deriving DecidableEq

/-- Presence info stored in the server's `users` mapping. -/
structure UserInfo where
  name : String
  color : String
deriving DecidableEq

/-- The server's shared mutable state: `users`, `globalHistory`, `redoStack`. -/
structure ServerState where
  users : List (String × UserInfo)
  globalHistory : List Stroke
  redoStack : List Stroke
deriving DecidableEq

/-- A JSON-like wire payload; covers arbitrary, possibly malformed, values.
The server forwards `draw:start` / `draw:move` payloads without inspecting
them, and reads only the `x` and `y` fields of a `cursor:move` payload. -/
inductive JsPayload where
  | nullVal : JsPayload
  | num : ℚ → JsPayload
  | str : String → JsPayload
  | arr : List JsPayload → JsPayload
  | obj : List (String × JsPayload) → JsPayload

/-- Field access `payload.key` on a JSON-like value: a lookup on an object,
`undefined` (here `none`) on anything else. -/
def jsField : JsPayload → String → Option JsPayload
  | JsPayload.obj fields, k => fields.lookup k
  | _, _ => none

/-- The `cursor:update` payload the server builds:
`{ id, name, color, x: pos.x, y: pos.y }`. -/
structure CursorUpdate where
  id : String
  name : String
  color : String
  x : Option JsPayload
  y : Option JsPayload

/-- The audience of an emitted message: `io.emit` reaches every connection
including the sender; `socket.broadcast.emit` reaches every connection except
the sender; `socket.emit` reaches the requesting connection only. -/
inductive Recipient where
  | all : Recipient
  | others : String → Recipient
  | only : String → Recipient
deriving DecidableEq

/-- Messages the embedded handlers emit. -/
inductive Out where
  | drawStartFwd : JsPayload → Out
  | drawMoveFwd : JsPayload → Out
  | drawEnd : Stroke → Out
  | syncHistory : List Stroke → Out
  | undoEmpty : Out
  | redoEmpty : Out
  | cursorUpdate : CursorUpdate → Out

/-- Handler of `socket.on("draw:end")` in server.js: push the stroke onto
`globalHistory`, clear `redoStack`, `io.emit` the stroke as `draw:end`, and
`io.emit` the new history as `sync:history`. -/
def handleDrawEnd (st : ServerState) (stroke : Stroke) :
    ServerState × List (Recipient × Out) :=
  let h := st.globalHistory ++ [stroke]
  ({ st with globalHistory := h, redoStack := [] },
   [(Recipient.all, Out.drawEnd stroke), (Recipient.all, Out.syncHistory h)])

/-- Handler of `socket.on("undo")` in server.js: `globalHistory.pop()`; if an
element came off, push it onto `redoStack` and `io.emit` the popped history as
`sync:history`; otherwise `socket.emit("undo:empty")` to the requester. -/
def handleUndo (conn : String) (st : ServerState) :
    ServerState × List (Recipient × Out) :=
  match st.globalHistory.getLast? with
  | some last =>
      ({ st with
           globalHistory := st.globalHistory.dropLast,
           redoStack := st.redoStack ++ [last] },
       [(Recipient.all, Out.syncHistory st.globalHistory.dropLast)])
  | none => (st, [(Recipient.only conn, Out.undoEmpty)])

/-- Handler of `socket.on("redo")` in server.js: `redoStack.pop()`; if an
element came off, push it onto `globalHistory` and `io.emit` the new history
as `sync:history`; otherwise `socket.emit("redo:empty")` to the requester. -/
def handleRedo (conn : String) (st : ServerState) :
    ServerState × List (Recipient × Out) :=
  match st.redoStack.getLast? with
  | some item =>
      ({ st with
           globalHistory := st.globalHistory ++ [item],
           redoStack := st.redoStack.dropLast },
       [(Recipient.all, Out.syncHistory (st.globalHistory ++ [item]))])
  | none => (st, [(Recipient.only conn, Out.redoEmpty)])

/-- Handler of `socket.on("clear:board")` in server.js: empty both stacks and
`io.emit` the (now empty) history as `sync:history`. -/
def handleClear (st : ServerState) : ServerState × List (Recipient × Out) :=
  ({ st with globalHistory := [], redoStack := [] },
   [(Recipient.all, Out.syncHistory [])])

/-- Handler of `socket.on("draw:start")` in server.js: forward the payload
verbatim to everyone but the sender. -/
def handleDrawStart (conn : String) (st : ServerState) (data : JsPayload) :
    ServerState × List (Recipient × Out) :=
  (st, [(Recipient.others conn, Out.drawStartFwd data)])

/-- Handler of `socket.on("draw:move")` in server.js: forward the payload
verbatim to everyone but the sender. -/
def handleDrawMove (conn : String) (st : ServerState) (data : JsPayload) :
    ServerState × List (Recipient × Out) :=
  (st, [(Recipient.others conn, Out.drawMoveFwd data)])

/-- Handler of `socket.on("cursor:move")` in server.js: look the sender up in
`users`; if absent, return; otherwise broadcast a `cursor:update` built from
the presence entry and the payload's `x` / `y` fields. -/
def handleCursorMove (conn : String) (st : ServerState) (pos : JsPayload) :
    ServerState × List (Recipient × Out) :=
  match st.users.lookup conn with
  | none => (st, [])
  | some u =>
      (st, [(Recipient.others conn,
             Out.cursorUpdate ⟨conn, u.name, u.color, jsField pos "x", jsField pos "y"⟩)])

/-- The four structural operations on the authoritative session state. -/
inductive Op where
  | commit : Stroke → Op
  | undo : Op
  | redo : Op
  | clear : Op
deriving DecidableEq

/-- Dispatch one structural operation, requested by connection `conn`. -/
def stepOp (conn : String) (st : ServerState) (op : Op) :
    ServerState × List (Recipient × Out) :=
  match op with
  | Op.commit s => handleDrawEnd st s
  | Op.undo => handleUndo conn st
  | Op.redo => handleRedo conn st
  | Op.clear => handleClear st

/-- The state after one structural operation. -/
def applyOp (conn : String) (st : ServerState) (op : Op) : ServerState :=
  (stepOp conn st op).1

/-- Replay a list of (connection, operation) events from a given state. -/
def runFrom (st : ServerState) (evs : List (String × Op)) : ServerState :=
  evs.foldl (fun s e => applyOp e.1 s e.2) st

/-- The server's initial state: no users, empty history, empty redo stack. -/
def emptyState : ServerState := { users := [], globalHistory := [], redoStack := [] }

/-- Replay a list of events from the empty state. -/
def run (evs : List (String × Op)) : ServerState := runFrom emptyState evs

/-- The midpoint of two points, as computed inside `_drawSmooth`:
`((pts[i].x + pts[i+1].x) / 2, (pts[i].y + pts[i+1].y) / 2)`. -/
def midpoint (p q : Point) : Point := ⟨(p.x + q.x) / 2, (p.y + q.y) / 2⟩

/-- One quadratic path segment; `start` records the canvas's implicit current
point when the corresponding `quadraticCurveTo(ctrl, stop)` call runs. -/
structure QuadSeg where
  start : Point
  ctrl : Point
  stop : Point
deriving DecidableEq

/-- The segments the loop in `_drawSmooth` produces once the pen stands at
`cur`: for each point `c` that still has a successor `nxt`, a quadratic
segment with control `c` ending at the midpoint of `c` and `nxt`, the pen
moving to that midpoint. The loop `for (i = 1; i < pts.length - 1; i++)`
corresponds to running this on the tail of the point list with the pen at
the head. -/
def smoothSegsFrom (cur : Point) : List Point → List QuadSeg
  | c :: nxt :: rest =>
      ⟨cur, c, midpoint c nxt⟩ :: smoothSegsFrom (midpoint c nxt) (nxt :: rest)
  | _ => []

/-- Canvas commands a `_drawSmooth` call appends to a 2-D context. -/
inductive CanvasCmd where
  | setStyle : String → ℚ → CanvasCmd
  | beginPath : CanvasCmd
  | moveTo : Point → CanvasCmd
  | quadCurveTo : Point → Point → CanvasCmd
  | strokePath : CanvasCmd
deriving DecidableEq

/-- The `_drawSmooth(ctx, pts, color, size)` helper of canvas.js: appends
nothing for fewer than two points; otherwise sets the style, begins one path,
moves to the first point, issues the loop's `quadraticCurveTo` calls, and
strokes the path once. -/
def drawSmooth (ctx : List CanvasCmd) (pts : List Point) (color : String) (size : ℚ) :
    List CanvasCmd :=
  match pts with
  | p0 :: p1 :: rest =>
      ctx ++ [CanvasCmd.setStyle color size, CanvasCmd.beginPath, CanvasCmd.moveTo p0]
          ++ (smoothSegsFrom p0 (p1 :: rest)).map (fun sg => CanvasCmd.quadCurveTo sg.ctrl sg.stop)
          ++ [CanvasCmd.strokePath]
  | _ => ctx

/-- The client state of `CanvasBoard`: the local mirror `strokes` of the
server's history, the contents of the three layer canvases, and the map of
remote in-progress strokes. -/
structure ClientState where
  strokes : List Stroke
  historyLayer : List CanvasCmd
  remoteLayer : List CanvasCmd
  liveLayer : List CanvasCmd
  remoteStrokes : List (String × Stroke)
deriving DecidableEq

/-- Method `syncHistory(history)` of canvas.js: replace `strokes` by a copy of
the snapshot, clear the history canvas and repaint it by replaying every
stroke of the snapshot in order through `_drawSmooth`, then clear the remote
and live canvases. A non-array payload is coerced to `[]` before this runs;
the snapshot argument here is the resulting array. -/
def syncHistory (cs : ClientState) (history : List Stroke) : ClientState :=
  { cs with
      strokes := history,
      historyLayer := history.foldl (fun ctx s => drawSmooth ctx s.points s.color s.size) [],
      remoteLayer := [],
      liveLayer := [] }

/-- Method `commitRemoteStroke(stroke)` of canvas.js: push the stroke onto the
local mirror and draw it onto the history canvas; then, if the stroke has a
truthy id with an entry in `remoteStrokes`, delete that entry and clear the
remote-preview canvas. A nullish `stroke` argument returns early; the
argument here is an actual stroke object, which is truthy. -/
def commitRemoteStroke (cs : ClientState) (stroke : Stroke) : ClientState :=
  let cs1 :=
    { cs with
        strokes := cs.strokes ++ [stroke],
        historyLayer := drawSmooth cs.historyLayer stroke.points stroke.color stroke.size }
  if stroke.id ≠ "" ∧ (cs1.remoteStrokes.lookup stroke.id).isSome then
    { cs1 with
        remoteStrokes := cs1.remoteStrokes.filter (fun e => e.1 != stroke.id),
        remoteLayer := [] }
  else cs1

/-- C1: for every undo request, if History is non-empty the server pops its
last element, pushes it onto the Redo Stack, and broadcasts the new History
snapshot to all connections; if History is empty it emits `undo:empty` to the
requesting connection only (nothing is broadcast) and leaves History and the
Redo Stack unchanged. -/
theorem undo_contract (conn : String) (st : ServerState) :
    (∀ (h : List Stroke) (a : Stroke), st.globalHistory = h ++ [a] →
        handleUndo conn st =
          ({ st with globalHistory := h, redoStack := st.redoStack ++ [a] },
           [(Recipient.all, Out.syncHistory h)]))
  ∧ (st.globalHistory = [] →
        handleUndo conn st = (st, [(Recipient.only conn, Out.undoEmpty)])) := by
  constructor
  · intro h a he
    simp [handleUndo, he, List.getLast?_concat, List.dropLast_concat]
  · intro he
    simp [handleUndo, he]

/-- Witness for C1: both branches of `undo_contract` at concrete states. -/
theorem undo_contract_witness :
    (handleUndo "a" { users := [], globalHistory := [⟨"s1", [], "#000", 1⟩], redoStack := [] } =
       ({ users := [], globalHistory := [], redoStack := [⟨"s1", [], "#000", 1⟩] },
        [(Recipient.all, Out.syncHistory [])]))
  ∧ (handleUndo "b" emptyState = (emptyState, [(Recipient.only "b", Out.undoEmpty)])) :=
  ⟨(undo_contract "a" _).1 [] ⟨"s1", [], "#000", 1⟩ rfl,
   (undo_contract "b" emptyState).2 rfl⟩

/-- C2: for every `draw:end` event the server appends the stroke to History
and then sends the same full stroke to all connections (including the sender)
and, separately, a `sync:history` message carrying the full canonical History
to all connections. -/
theorem drawEnd_contract (st : ServerState) (s : Stroke) :
    handleDrawEnd st s =
      ({ st with globalHistory := st.globalHistory ++ [s], redoStack := [] },
       [(Recipient.all, Out.drawEnd s),
        (Recipient.all, Out.syncHistory (st.globalHistory ++ [s]))]) := rfl

/-- C9: for every `clear:board` request, regardless of the current contents of
History and the Redo Stack, both become empty and a `sync:history` message
carrying the empty sequence goes to all connections, the issuer included. -/
theorem clearBoard_contract (st : ServerState) :
    handleClear st =
      ({ st with globalHistory := [], redoStack := [] },
       [(Recipient.all, Out.syncHistory [])]) := rfl

/-- C10: the non-structural handlers `draw:start`, `draw:move` and
`cursor:move` leave History and the Redo Stack unchanged for every payload,
including malformed payloads and payloads from a connection absent from the
`users` mapping. -/
theorem nonStructural_frame (conn : String) (st : ServerState) (data move pos : JsPayload) :
    (handleDrawStart conn st data).1.globalHistory = st.globalHistory
  ∧ (handleDrawStart conn st data).1.redoStack = st.redoStack
  ∧ (handleDrawMove conn st move).1.globalHistory = st.globalHistory
  ∧ (handleDrawMove conn st move).1.redoStack = st.redoStack
  ∧ (handleCursorMove conn st pos).1.globalHistory = st.globalHistory
  ∧ (handleCursorMove conn st pos).1.redoStack = st.redoStack := by
  refine ⟨rfl, rfl, rfl, rfl, ?_, ?_⟩ <;>
    cases h : st.users.lookup conn <;> simp [handleCursorMove, h]

/-- C5: from any state with a non-empty History, undo immediately followed by
redo restores History to its pre-undo value, same strokes in the same order. -/
theorem undo_redo_roundtrip (c1 c2 : String) (st : ServerState)
    (hne : st.globalHistory ≠ []) :
    (applyOp c2 (applyOp c1 st Op.undo) Op.redo).globalHistory = st.globalHistory := by
  cases hl : st.globalHistory.getLast? with
  | none => exact absurd (List.getLast?_eq_none_iff.1 hl) hne
  | some a =>
      obtain ⟨ys, hys⟩ := List.getLast?_eq_some_iff.1 hl
      simp [applyOp, stepOp, handleUndo, handleRedo, hys,
            List.getLast?_concat, List.dropLast_concat]

/-- Witness for C5: a one-stroke history survives the undo/redo round trip. -/
theorem undo_redo_roundtrip_witness :
    (applyOp "b" (applyOp "a"
        { users := [], globalHistory := [⟨"s1", [], "#000", 1⟩], redoStack := [] }
        Op.undo) Op.redo).globalHistory = [⟨"s1", [], "#000", 1⟩] :=
  undo_redo_roundtrip "a" "b" _ (by decide)

/-- C3: every commit empties the Redo Stack, and the sequence undo, then a
new commit, then redo signals `redo:empty` to the requester alone, changes no
state, and leaves History ending in the new stroke rather than restoring the
undone one. -/
theorem commit_clears_redo (c1 c2 c3 : String) (st : ServerState) (s : Stroke)
    (h : List Stroke) (a : Stroke) (hh : st.globalHistory = h ++ [a]) :
    (∀ (st2 : ServerState) (s2 : Stroke), (handleDrawEnd st2 s2).1.redoStack = [])
  ∧ (applyOp c2 (applyOp c1 st Op.undo) (Op.commit s)).globalHistory = h ++ [s]
  ∧ (applyOp c2 (applyOp c1 st Op.undo) (Op.commit s)).redoStack = []
  ∧ stepOp c3 (applyOp c2 (applyOp c1 st Op.undo) (Op.commit s)) Op.redo =
      (applyOp c2 (applyOp c1 st Op.undo) (Op.commit s),
       [(Recipient.only c3, Out.redoEmpty)]) := by
  refine ⟨fun st2 s2 => rfl, ?_, ?_, ?_⟩ <;>
    simp [applyOp, stepOp, handleUndo, handleRedo, handleDrawEnd, hh,
          List.getLast?_concat, List.dropLast_concat]

/-- Witness for C3: the undo / commit / redo scenario at a concrete state. -/
theorem commit_clears_redo_witness :
    (handleDrawEnd emptyState ⟨"w", [], "#000", 1⟩).1.redoStack = []
  ∧ (applyOp "b" (applyOp "a"
        { users := [], globalHistory := [⟨"s1", [], "#000", 1⟩], redoStack := [] }
        Op.undo) (Op.commit ⟨"s2", [], "#000", 1⟩)).globalHistory = [⟨"s2", [], "#000", 1⟩] :=
  ⟨(commit_clears_redo "a" "b" "c"
      { users := [], globalHistory := [⟨"s1", [], "#000", 1⟩], redoStack := [] }
      ⟨"s2", [], "#000", 1⟩ [] ⟨"s1", [], "#000", 1⟩ rfl).1 emptyState ⟨"w", [], "#000", 1⟩,
   (commit_clears_redo "a" "b" "c"
      { users := [], globalHistory := [⟨"s1", [], "#000", 1⟩], redoStack := [] }
      ⟨"s2", [], "#000", 1⟩ [] ⟨"s1", [], "#000", 1⟩ rfl).2.1⟩

/-- C7: `syncHistory` replaces the local stroke mirror wholesale with the
received snapshot, clears the remote-preview and local-live layers, repaints
the history layer from scratch in snapshot order, and is idempotent. -/
theorem syncHistory_contract (cs : ClientState) (history : List Stroke) :
    (syncHistory cs history).strokes = history
  ∧ (syncHistory cs history).historyLayer =
      history.foldl (fun ctx s => drawSmooth ctx s.points s.color s.size) []
  ∧ (syncHistory cs history).remoteLayer = []
  ∧ (syncHistory cs history).liveLayer = []
  ∧ syncHistory (syncHistory cs history) history = syncHistory cs history :=
  ⟨rfl, rfl, rfl, rfl, rfl⟩

/-- Helper: the control point and endpoint of each emitted segment come from
consecutive pairs of the traversed point list. -/
lemma smoothSegsFrom_pairs (cur : Point) (pts : List Point) :
    (smoothSegsFrom cur pts).map (fun sg => (sg.ctrl, sg.stop)) =
      (pts.zip pts.tail).map (fun pr => (pr.1, midpoint pr.1 pr.2)) := by
  induction pts generalizing cur with
  | nil => rfl
  | cons c rest ih =>
    cases rest with
    | nil => rfl
    | cons nxt rest2 => simp [smoothSegsFrom, ih]

/-- Helper: the control points of the emitted segments are exactly the
traversed points that still have a successor. -/
lemma smoothSegsFrom_ctrls (cur : Point) (pts : List Point) :
    (smoothSegsFrom cur pts).map QuadSeg.ctrl = pts.dropLast := by
  induction pts generalizing cur with
  | nil => rfl
  | cons c rest ih =>
    cases rest with
    | nil => rfl
    | cons nxt rest2 => simp [smoothSegsFrom, ih]

/-- Helper: the first emitted segment starts at the pen position. -/
lemma smoothSegsFrom_head_start (cur : Point) (pts : List Point) (sg : QuadSeg)
    (hh : (smoothSegsFrom cur pts).head? = some sg) : sg.start = cur := by
  cases pts with
  | nil => simp [smoothSegsFrom] at hh
  | cons c rest =>
    cases rest with
    | nil => simp [smoothSegsFrom] at hh
    | cons nxt rest2 =>
      simp [smoothSegsFrom] at hh
      rw [← hh]

/-- Helper: consecutive emitted segments are connected, each starting where
the previous one stopped. -/
lemma smoothSegsFrom_chain (cur : Point) (pts : List Point) :
    List.Chain' (fun sg1 sg2 => sg1.stop = sg2.start) (smoothSegsFrom cur pts) := by
  induction pts generalizing cur with
  | nil => simp [smoothSegsFrom]
  | cons c rest ih =>
    cases rest with
    | nil => simp [smoothSegsFrom]
    | cons nxt rest2 =>
      rw [smoothSegsFrom]
      refine List.chain'_cons'.2 ⟨fun sg2 hsg2 => ?_, ih (midpoint c nxt)⟩
      exact (smoothSegsFrom_head_start _ _ _ hsg2).symm

/-- C8: the Smoothing Renderer appends nothing for point sequences of length
0 or 1; for 2 or more points it appends one styled path that begins at the
first point and is stroked once, whose quadratic segments use each interior
point as control point toward the midpoint to the next point, consecutive
segments being connected and the first starting at the first point. -/
theorem drawSmooth_contract :
    (∀ (ctx : List CanvasCmd) (pts : List Point) (color : String) (size : ℚ),
        pts.length < 2 → drawSmooth ctx pts color size = ctx)
  ∧ (∀ (ctx : List CanvasCmd) (p0 p1 : Point) (rest : List Point)
        (color : String) (size : ℚ),
        drawSmooth ctx (p0 :: p1 :: rest) color size =
          ctx ++ [CanvasCmd.setStyle color size, CanvasCmd.beginPath, CanvasCmd.moveTo p0]
              ++ (smoothSegsFrom p0 (p1 :: rest)).map
                   (fun sg => CanvasCmd.quadCurveTo sg.ctrl sg.stop)
              ++ [CanvasCmd.strokePath])
  ∧ (∀ (p0 p1 : Point) (rest : List Point),
        (smoothSegsFrom p0 (p1 :: rest)).map QuadSeg.ctrl = (p1 :: rest).dropLast)
  ∧ (∀ (p0 p1 : Point) (rest : List Point),
        (smoothSegsFrom p0 (p1 :: rest)).map (fun sg => (sg.ctrl, sg.stop)) =
          ((p1 :: rest).zip rest).map (fun pr => (pr.1, midpoint pr.1 pr.2)))
  ∧ (∀ (cur : Point) (pts : List Point),
        List.Chain' (fun sg1 sg2 => sg1.stop = sg2.start) (smoothSegsFrom cur pts))
  ∧ (∀ (cur : Point) (pts : List Point) (sg : QuadSeg),
        (smoothSegsFrom cur pts).head? = some sg → sg.start = cur) := by
  refine ⟨?_, fun ctx p0 p1 rest color size => rfl, ?_, ?_,
          smoothSegsFrom_chain, smoothSegsFrom_head_start⟩
  · intro ctx pts color size hlen
    match pts with
    | [] => rfl
    | [p] => rfl
    | p0 :: p1 :: rest => exact absurd hlen (by simp)
  · intro p0 p1 rest
    exact smoothSegsFrom_ctrls p0 (p1 :: rest)
  · intro p0 p1 rest
    exact smoothSegsFrom_pairs p0 (p1 :: rest)

/-- Witness for C8: both kinds of hypothesis of `drawSmooth_contract`
discharged at concrete inputs. -/
theorem drawSmooth_contract_witness :
    drawSmooth [] [⟨0, 0⟩] "#000" 1 = []
  ∧ (⟨⟨0, 0⟩, ⟨1, 1⟩, midpoint ⟨1, 1⟩ ⟨2, 2⟩⟩ : QuadSeg).start = ⟨0, 0⟩ :=
  ⟨drawSmooth_contract.1 [] [⟨0, 0⟩] "#000" 1 (by decide),
   drawSmooth_contract.2.2.2.2.2 ⟨0, 0⟩ [⟨1, 1⟩, ⟨2, 2⟩] _ rfl⟩

/-- Helper: the state transition of a structural operation does not depend on
which connection requested it; the connection only addresses the empty-undo
and empty-redo signals. -/
lemma applyOp_conn_irrel (c c2 : String) (st : ServerState) (op : Op) :
    applyOp c st op = applyOp c2 st op := by
  cases op with
  | commit s => rfl
  | undo => cases h : st.globalHistory.getLast? <;> simp [applyOp, stepOp, handleUndo, h]
  | redo => cases h : st.redoStack.getLast? <;> simp [applyOp, stepOp, handleRedo, h]
  | clear => rfl

/-- Helper: replaying two event lists carrying the same operation sequence
from the same state ends in the same state. -/
lemma runFrom_ops_eq (st : ServerState) (evs1 evs2 : List (String × Op))
    (hsame : evs1.map Prod.snd = evs2.map Prod.snd) :
    runFrom st evs1 = runFrom st evs2 := by
  induction evs1 generalizing st evs2 with
  | nil =>
    cases evs2 with
    | nil => rfl
    | cons e2 t2 => simp at hsame
  | cons e t ih =>
    cases evs2 with
    | nil => simp at hsame
    | cons e2 t2 =>
      simp only [List.map_cons, List.cons.injEq] at hsame
      obtain ⟨hop, ht⟩ := hsame
      show runFrom (applyOp e.1 st e.2) t = runFrom (applyOp e2.1 st e2.2) t2
      rw [applyOp_conn_irrel e.1 e2.1 st e.2, hop]
      exact ih _ _ ht

/-- C4: replaying a sequence of commit/undo/redo/clear operations from the
empty state is deterministic: two runs of the same operation sequence, even
issued by different connections, produce identical final History contents. -/
theorem replay_deterministic (evs1 evs2 : List (String × Op))
    (hsame : evs1.map Prod.snd = evs2.map Prod.snd) :
    (run evs1).globalHistory = (run evs2).globalHistory := by
  unfold run
  rw [runFrom_ops_eq emptyState evs1 evs2 hsame]

/-- Witness for C4: the same operation sequence issued by two different
connections yields the same final History. -/
theorem replay_deterministic_witness :
    (run [("a", Op.commit ⟨"s1", [], "#000", 1⟩), ("a", Op.undo)]).globalHistory =
      (run [("b", Op.commit ⟨"s1", [], "#000", 1⟩), ("c", Op.undo)]).globalHistory :=
  replay_deterministic _ _ rfl

/-- Strokes a list of events commits via `draw:end`, in order. -/
def commitsOf (evs : List (String × Op)) : List Stroke :=
  evs.filterMap (fun e => match e.2 with | Op.commit s => some s | _ => none)

/-- Strokes a single operation commits. -/
def opCommits : Op → List Stroke
  | Op.commit s => [s]
  | _ => []

/-- All strokes the server currently holds, History followed by Redo Stack. -/
def stateStrokes (st : ServerState) : List Stroke := st.globalHistory ++ st.redoStack

lemma commitsOf_cons (e : String × Op) (t : List (String × Op)) :
    commitsOf (e :: t) = opCommits e.2 ++ commitsOf t := by
  cases h : e.2 <;> simp [commitsOf, opCommits, h, List.filterMap_cons]

lemma subperm_map {α β : Type} (f : α → β) {l1 l2 : List α} (h : List.Subperm l1 l2) :
    List.Subperm (l1.map f) (l2.map f) := by
  obtain ⟨l, hp, hs⟩ := h
  exact ⟨l.map f, hp.map f, hs.map f⟩

lemma subperm_nodup {α : Type} {l1 l2 : List α} (h : List.Subperm l1 l2) (hn : l2.Nodup) :
    l1.Nodup := by
  obtain ⟨l, hp, hs⟩ := h
  exact hp.nodup (List.Nodup.sublist hs hn)

/-- Helper: one structural operation only rearranges, drops or freshly adds
strokes; the strokes held afterwards form a sub-permutation of the operation's
fresh commits together with the strokes held before. -/
lemma stateStrokes_step (c : String) (st : ServerState) (op : Op) :
    List.Subperm (stateStrokes (applyOp c st op)) (opCommits op ++ stateStrokes st) := by
  cases op with
  | commit s =>
    show List.Subperm ((st.globalHistory ++ [s]) ++ [])
        ([s] ++ (st.globalHistory ++ st.redoStack))
    rw [List.append_nil]
    refine (@List.perm_append_comm _ st.globalHistory [s]).subperm.trans ?_
    apply List.Sublist.subperm
    rw [← List.append_assoc]
    exact List.sublist_append_left _ _
  | undo =>
    cases hl : st.globalHistory.getLast? with
    | none =>
      simp only [applyOp, stepOp, handleUndo, hl, opCommits, List.nil_append]
      exact List.Subperm.refl _
    | some a =>
      obtain ⟨ys, hys⟩ := List.getLast?_eq_some_iff.1 hl
      simp only [applyOp, stepOp, handleUndo, opCommits, stateStrokes, hys,
                 List.getLast?_concat, List.dropLast_concat, List.nil_append]
      refine List.Perm.subperm ?_
      rw [List.append_assoc]
      exact (@List.perm_append_comm _ st.redoStack [a]).append_left ys
  | redo =>
    cases hl : st.redoStack.getLast? with
    | none =>
      simp only [applyOp, stepOp, handleRedo, hl, opCommits, List.nil_append]
      exact List.Subperm.refl _
    | some a =>
      obtain ⟨ys, hys⟩ := List.getLast?_eq_some_iff.1 hl
      simp only [applyOp, stepOp, handleRedo, opCommits, stateStrokes, hys,
                 List.getLast?_concat, List.dropLast_concat, List.nil_append]
      refine List.Perm.subperm ?_
      rw [List.append_assoc]
      exact ((@List.perm_append_comm _ [a] ys).append_left st.globalHistory)
  | clear =>
    show List.Subperm ([] ++ []) ([] ++ (st.globalHistory ++ st.redoStack))
    simp [List.nil_subperm]

/-- Helper: if the ids of the strokes still to be committed together with the
strokes already held are pairwise distinct, the ids of the strokes held after
the replay are pairwise distinct. -/
lemma runFrom_ids_nodup (evs : List (String × Op)) :
    ∀ st : ServerState,
      ((commitsOf evs ++ stateStrokes st).map Stroke.id).Nodup →
      ((stateStrokes (runFrom st evs)).map Stroke.id).Nodup := by
  induction evs with
  | nil =>
    intro st h
    simpa [commitsOf, runFrom] using h
  | cons e t ih =>
    intro st h
    have hsub : List.Subperm (commitsOf t ++ stateStrokes (applyOp e.1 st e.2))
        (commitsOf (e :: t) ++ stateStrokes st) := by
      have h1 : List.Subperm (commitsOf t ++ stateStrokes (applyOp e.1 st e.2))
          (commitsOf t ++ (opCommits e.2 ++ stateStrokes st)) :=
        (List.subperm_append_left _).2 (stateStrokes_step e.1 st e.2)
      have h2 : List.Perm (commitsOf t ++ (opCommits e.2 ++ stateStrokes st))
          ((opCommits e.2 ++ commitsOf t) ++ stateStrokes st) := by
        rw [← List.append_assoc]
        exact (@List.perm_append_comm _ (commitsOf t) (opCommits e.2)).append_right _
      rw [commitsOf_cons]
      exact h1.trans h2.subperm
    have hn : ((commitsOf t ++ stateStrokes (applyOp e.1 st e.2)).map Stroke.id).Nodup :=
      subperm_nodup (subperm_map Stroke.id hsub) h
    have hrec := ih (applyOp e.1 st e.2) hn
    simpa [runFrom, List.foldl_cons] using hrec

/-- Helper: every stroke held after a replay was either held before it or is
one of the replay's committed payload values, unchanged. -/
lemma runFrom_strokes_mem (evs : List (String × Op)) :
    ∀ (st : ServerState) (s : Stroke), s ∈ stateStrokes (runFrom st evs) →
      s ∈ stateStrokes st ∨ s ∈ commitsOf evs := by
  induction evs with
  | nil =>
    intro st s h
    exact Or.inl (by simpa [runFrom] using h)
  | cons e t ih =>
    intro st s h
    rcases ih (applyOp e.1 st e.2) s (by simpa [runFrom, List.foldl_cons] using h) with h1 | h1
    · have hmem := (stateStrokes_step e.1 st e.2).subset h1
      rcases List.mem_append.1 hmem with h2 | h2
      · right
        rw [commitsOf_cons]
        exact List.mem_append_left _ h2
      · exact Or.inl h2
    · right
      rw [commitsOf_cons]
      exact List.mem_append_right _ h1

lemma commitRemoteStroke_strokes (cs : ClientState) (stroke : Stroke) :
    (commitRemoteStroke cs stroke).strokes = cs.strokes ++ [stroke] := by
  unfold commitRemoteStroke
  dsimp only
  split <;> rfl

/-- C6 is refuted as stated: committing the same stroke value twice is a
reachable sequence of operations after which the stroke appears twice in
History. -/
theorem history_at_most_once_cex :
    (run [("a", Op.commit ⟨"s", [], "#000", 1⟩),
          ("a", Op.commit ⟨"s", [], "#000", 1⟩)]).globalHistory =
      [⟨"s", [], "#000", 1⟩, ⟨"s", [], "#000", 1⟩]
  ∧ ¬ (((run [("a", Op.commit ⟨"s", [], "#000", 1⟩),
              ("a", Op.commit ⟨"s", [], "#000", 1⟩)]).globalHistory).map Stroke.id).Nodup := by
  exact ⟨rfl, by decide⟩

/-- C6 (amended): provided the committed strokes carry pairwise-distinct ids,
every state reachable by commit/undo/redo/clear operations from the empty
state has pairwise-distinct stroke ids in History; unconditionally, every
History entry is exactly one of the committed stroke values, every operation
leaves History unchanged or drops its last entry, appends one stroke, or
empties it — never rewriting an existing entry — and the client's local
mirror keeps at-most-once after a commit event carrying a fresh stroke id. -/
theorem history_at_most_once :
    (∀ evs : List (String × Op),
        ((commitsOf evs).map Stroke.id).Nodup →
        (((run evs).globalHistory).map Stroke.id).Nodup)
  ∧ (∀ (evs : List (String × Op)) (s : Stroke),
        s ∈ (run evs).globalHistory → s ∈ commitsOf evs)
  ∧ (∀ (c : String) (st : ServerState) (op : Op),
        (applyOp c st op).globalHistory = st.globalHistory
      ∨ (applyOp c st op).globalHistory = st.globalHistory.dropLast
      ∨ (∃ s, (applyOp c st op).globalHistory = st.globalHistory ++ [s])
      ∨ (applyOp c st op).globalHistory = [])
  ∧ (∀ (cs : ClientState) (stroke : Stroke),
        (cs.strokes.map Stroke.id).Nodup →
        stroke.id ∉ cs.strokes.map Stroke.id →
        (((commitRemoteStroke cs stroke).strokes).map Stroke.id).Nodup) := by
  refine ⟨?_, ?_, ?_, ?_⟩
  · intro evs hn
    have h0 : ((commitsOf evs ++ stateStrokes emptyState).map Stroke.id).Nodup := by
      simpa [stateStrokes, emptyState] using hn
    have h1 := runFrom_ids_nodup evs emptyState h0
    have h2 : List.Sublist ((run evs).globalHistory.map Stroke.id)
        ((stateStrokes (run evs)).map Stroke.id) :=
      List.Sublist.map _ (List.sublist_append_left _ _)
    exact List.Nodup.sublist h2 h1
  · intro evs s hs
    have h1 : s ∈ stateStrokes (run evs) :=
      List.mem_append_left _ hs
    rcases runFrom_strokes_mem evs emptyState s h1 with h2 | h2
    · simp [stateStrokes, emptyState] at h2
    · exact h2
  · intro c st op
    cases op with
    | commit s => exact Or.inr (Or.inr (Or.inl ⟨s, rfl⟩))
    | undo =>
      cases hl : st.globalHistory.getLast? with
      | none => exact Or.inl (by simp [applyOp, stepOp, handleUndo, hl])
      | some a => exact Or.inr (Or.inl (by simp [applyOp, stepOp, handleUndo, hl]))
    | redo =>
      cases hl : st.redoStack.getLast? with
      | none => exact Or.inl (by simp [applyOp, stepOp, handleRedo, hl])
      | some a =>
        exact Or.inr (Or.inr (Or.inl ⟨a, by simp [applyOp, stepOp, handleRedo, hl]⟩))
    | clear => exact Or.inr (Or.inr (Or.inr rfl))
  · intro cs stroke h1 h2
    rw [commitRemoteStroke_strokes, List.map_append]
    refine List.Nodup.append h1 (List.nodup_singleton _) ?_
    intro x hx hmem
    simp only [List.map_cons, List.map_nil, List.mem_singleton] at hmem
    exact h2 (hmem ▸ hx)

/-- Witness for C6: the amended guarantees at concrete inputs, each
hypothesis discharged by evaluation. -/
theorem history_at_most_once_witness :
    (((run [("a", Op.commit ⟨"s1", [], "#000", 1⟩)]).globalHistory).map Stroke.id).Nodup
  ∧ (⟨"s1", [], "#000", 1⟩ : Stroke) ∈ commitsOf [("a", Op.commit ⟨"s1", [], "#000", 1⟩)]
  ∧ (((commitRemoteStroke ⟨[⟨"s1", [], "#000", 1⟩], [], [], [], []⟩
        ⟨"s2", [], "#000", 1⟩).strokes).map Stroke.id).Nodup :=
  ⟨history_at_most_once.1 _ (by decide),
   history_at_most_once.2.1 _ _ (by decide),
   history_at_most_once.2.2.2 _ _ (by decide) (by decide)⟩

end Whiteboard
